import Mathlib

/-
Verification of the documentation relevance engine and suggestion-application
pipeline (fastapi_backend/app/file_service.py and ai_service.py).

Strings are modelled as `List Char`.  Python's `str.lower` is modelled with
ASCII lower-casing (`Char.toLower`), `str.strip`/`str.split` with the ASCII
whitespace set.  Effectful library calls (the OpenAI client, `json.loads`,
filesystem operations) are modelled as explicit parameters/oracles; everything
else is translated directly from the source.
-/

/-- Python's whitespace set (ASCII part), as used by `str.strip`, `str.split`
and the regex class `\s`. -/
def pyIsSpace (c : Char) : Bool :=
  c == ' ' || c == '\t' || c == '\n' || c == '\r' || c == '\x0b' || c == '\x0c'

/-- `str.strip()`: remove leading and trailing whitespace. -/
def pyStrip (s : List Char) : List Char :=
  ((s.dropWhile pyIsSpace).reverse.dropWhile pyIsSpace).reverse

/-- `str.lower()` (ASCII). -/
def pyLower (s : List Char) : List Char := s.map Char.toLower

/-- Auxiliary for `str.split()` with no separator: split on whitespace runs,
dropping empty pieces.  `acc` holds the current token reversed. -/
def splitWSAux : List Char → List Char → List (List Char)
  | [], [] => []
  | [], acc => [acc.reverse]
  | c :: rest, acc =>
    if pyIsSpace c then
      match acc with
      | [] => splitWSAux rest []
      | _ => acc.reverse :: splitWSAux rest []
    else splitWSAux rest (c :: acc)

/-- `str.split()` with no argument. -/
def pySplitWS (s : List Char) : List (List Char) := splitWSAux s []

/-- `content.split("\n")`: like Python, always returns at least one piece and
keeps empty pieces. -/
def splitNl : List Char → List (List Char)
  | [] => [[]]
  | c :: rest =>
    if c == '\n' then [] :: splitNl rest
    else
      match splitNl rest with
      | [] => [[c]]
      | h :: t => (c :: h) :: t

/-- `"\n".join(...)`. -/
def joinNl : List (List Char) → List Char
  | [] => []
  | [l] => l
  | l :: l' :: ls => l ++ '\n' :: joinNl (l' :: ls)

/-- `str.startswith` / list prefix test. -/
def startsWithL : List Char → List Char → Bool
  | [], _ => true
  | _ :: _, [] => false
  | a :: as, b :: bs => a == b && startsWithL as bs

/-- Python's `needle in haystack` substring test. -/
def isSubstrOf : List Char → List Char → Bool
  | n, [] => n.isEmpty
  | n, c :: rest => startsWithL n (c :: rest) || isSubstrOf n rest

/-- A section produced by `FileService._extract_sections` (the dict with keys
title / level / start_line / content / end_line). -/
structure MdSection where
  title : List Char
  level : Nat
  start_line : Nat
  content : List Char
  end_line : Nat
deriving DecidableEq

/-- The currently open section of the extraction loop: the fields of
`current_section` that are already fixed, plus the accumulated
`current_content` lines. -/
structure OpenSec where
  title : List Char
  level : Nat
  start_line : Nat
  acc : List (List Char)
deriving DecidableEq

/-- Closing the open section at end line `e`: its body is the accumulated
lines joined with newlines and stripped. -/
def closeSec (c : OpenSec) (e : Nat) : MdSection :=
  ⟨c.title, c.level, c.start_line, pyStrip (joinNl c.acc), e⟩

/-- `re.match(r"^(#{1,6})\s+(.+)$", line)` together with the extraction of
level (`len(group(1))`) and stripped title (`group(2).strip()`).

The regex matches iff the maximal leading run of `#` has length 1..6 and is
followed by a whitespace character and at least one further character (the
backtracking of `\s+` against `(.+)` only requires one whitespace character
before a non-empty remainder; `.` also matches whitespace).  Whatever split
the engine picks for `\s+`/`(.+)`, `group(2).strip()` equals the stripped
remainder after the hashes.  Lines fed to this function come from
`content.split("\n")` and therefore contain no newline. -/
def headerMatch (line : List Char) : Option (Nat × List Char) :=
  let m := (line.takeWhile (· == '#')).length
  if 1 ≤ m ∧ m ≤ 6 then
    match line.drop m with
    | [] => none
    | c :: cs =>
      if pyIsSpace c ∧ cs ≠ [] then some (m, pyStrip (c :: cs)) else none
  else none

/-- The loop of `FileService._extract_sections`: `i` is the 1-based index of
the next line, `cur` the currently open section. -/
def extractAux : List (List Char) → Nat → Option OpenSec → List MdSection
  | [], _, none => []
  | [], i, some c => [closeSec c (i - 1)]
  | l :: rest, i, cur =>
    match headerMatch l with
    | some (lv, t) =>
      match cur with
      | none => extractAux rest (i + 1) (some ⟨t, lv, i, []⟩)
      | some c => closeSec c (i - 1) :: extractAux rest (i + 1) (some ⟨t, lv, i, []⟩)
    | none =>
      match cur with
      | none => extractAux rest (i + 1) none
      | some c => extractAux rest (i + 1) (some { c with acc := c.acc ++ [l] })

/-- `FileService._extract_sections`. -/
def extractSections (content : List Char) : List MdSection :=
  extractAux (splitNl content) 1 none

example : extractSections "# ab\ncd".toList = [⟨"ab".toList, 1, 1, "cd".toList, 2⟩] := by decide

example : extractSections "".toList = [] := by decide

example : extractSections "x\n# A\nb\n\n## B".toList =
    [⟨"A".toList, 1, 2, "b".toList, 4⟩, ⟨"B".toList, 2, 5, "".toList, 5⟩] := by decide

/-- A document as produced by `FileService.get_documentation_files`: its
relative path and raw content (sections are derived from the content). -/
structure MdDocument where
  path : List Char
  content : List Char
deriving DecidableEq

/-- An entry of the list built by `FileService.find_relevant_sections`. -/
structure RankedSection where
  file_path : List Char
  sect : MdSection
  relevance_score : Nat
  content : List Char
deriving DecidableEq

/-- `f"{section['title']} {section['content']}".lower()`. -/
def sectionText (s : MdSection) : List Char := pyLower (s.title ++ ' ' :: s.content)

/-- `sum(1 for keyword in keywords if keyword in section_text)`. -/
def sectionScore (keywords : List (List Char)) (s : MdSection) : Nat :=
  (keywords.filter (fun k => isSubstrOf k (sectionText s))).length

/-- One step of Python's stable `list.sort(key=relevance_score, reverse=True)`:
insert an element after every element of the (already sorted) list whose score
is at least as large. -/
def insertDesc (x : RankedSection) : List RankedSection → List RankedSection
  | [] => [x]
  | y :: ys =>
    if x.relevance_score ≤ y.relevance_score then y :: insertDesc x ys
    else x :: y :: ys

/-- Python's stable descending sort by `relevance_score`. -/
def sortDesc (xs : List RankedSection) : List RankedSection :=
  xs.foldl (fun acc x => insertDesc x acc) []

/-- `FileService.find_relevant_sections`, with the corpus (the result of
`get_documentation_files`) passed explicitly: every document's sections are
extracted from its content, sections with positive keyword score are collected
in corpus encounter order, sorted by score descending (stable) and truncated
to 10. -/
def findRelevantSections (query : List Char) (docs : List MdDocument) :
    List RankedSection :=
  let keywords := pySplitWS (pyLower query)
  let cands := docs.flatMap (fun d =>
    (extractSections d.content).filterMap (fun s =>
      let sc := sectionScore keywords s
      if 0 < sc then some ⟨d.path, s, sc, d.content⟩ else none))
  (sortDesc cands).take 10

/-- A suggestion dict.  `none` models an absent key (or a `None` value); the
Python field name `section` is a Lean keyword and is rendered `sec`,
`suggestion` is rendered `sugg`. -/
structure Suggestion where
  id : Option Int
  sec : Option (List Char)
  sugg : Option (List Char)
  file_path : Option (List Char)
  line_number : Option Int
deriving DecidableEq

/-- `AIService._get_fallback_suggestions`. -/
def getFallbackSuggestions (query : List Char) : List Suggestion :=
  [⟨some 1, some "General".toList,
    some ("Review and update documentation based on: ".toList ++ query),
    some "README.md".toList, none⟩,
   ⟨some 2, some "Usage".toList,
    some "Update usage examples and code snippets to reflect the changes mentioned in the query.".toList,
    some "docs/usage.md".toList, none⟩]

/-- `re.search(r"\[.*\]", content, re.DOTALL)`: the greedy match runs from the
first `[` to the last `]` of the whole text (and there is no match when no `]`
follows the first `[`). -/
def jsonArrayMatch (s : List Char) : Option (List Char) :=
  let pre := s.takeWhile (· ≠ '[')
  match s.drop pre.length with
  | [] => none
  | c :: rest =>
    let rrev := (c :: rest).reverse
    match (rrev.drop (rrev.takeWhile (· ≠ ']')).length).reverse with
    | [] => none
    | d :: core => some (d :: core)

example : jsonArrayMatch "ab[x]c[y]d".toList = some "[x]c[y]".toList := by decide
example : jsonArrayMatch "ab]cd[ef".toList = none := by decide

/-- `line.startswith(("1.", "2.", "3.", "4.", "5.")) or line.startswith("-")`. -/
def markerLine (l : List Char) : Bool :=
  startsWithL "1.".toList l || startsWithL "2.".toList l || startsWithL "3.".toList l ||
  startsWithL "4.".toList l || startsWithL "5.".toList l || startsWithL "-".toList l

/-- `line[line.find(".") + 1:].strip() if "." in line else line[1:].strip()`. -/
def markerBody (l : List Char) : List Char :=
  match l.findIdx? (· == '.') with
  | some i => pyStrip (l.drop (i + 1))
  | none => pyStrip (l.drop 1)

/-- The loop of `AIService._parse_text_suggestions`: `acc` is the list of
finished suggestions, `cur` the suggestion currently being built. -/
def parseTextAux : List (List Char) → List Suggestion → Option Suggestion → List Suggestion
  | [], acc, none => acc
  | [], acc, some c => acc ++ [c]
  | l :: rest, acc, cur =>
    let l' := pyStrip l
    if markerLine l' then
      let acc' := match cur with
        | none => acc
        | some c => acc ++ [c]
      parseTextAux rest acc'
        (some ⟨some ((acc'.length : Int) + 1), some "General".toList,
               some (markerBody l'), none, none⟩)
    else
      match cur with
      | some c =>
        if l' ≠ [] then
          parseTextAux rest acc (some { c with sugg := some (c.sugg.getD [] ++ ' ' :: l') })
        else parseTextAux rest acc cur
      | none => parseTextAux rest acc cur

/-- `AIService._parse_text_suggestions`. -/
def parseTextSuggestions (content : List Char) : List Suggestion :=
  let out := parseTextAux (splitNl content) [] none
  if out = [] then getFallbackSuggestions "general update".toList else out

/-- `AIService._parse_suggestions`, with `json.loads` (restricted to decoding
a JSON array of suggestion objects) passed as an oracle: `none` models a
raised `JSONDecodeError` (or a decode to something other than a list of
objects), which the function's own `except` turns into the canned fallback
set for the query `"general update"`. -/
def parseSuggestions (jsonDec : List Char → Option (List Suggestion))
    (content : List Char) : List Suggestion :=
  match jsonArrayMatch content with
  | some m =>
    match jsonDec m with
    | some suggs => suggs
    | none => getFallbackSuggestions "general update".toList
  | none => parseTextSuggestions content

/-- The dict `section_to_file` built by
`AIService._enhance_suggestions_with_files` (later assignments win). -/
def sectionToFileMap (relevant : List RankedSection) : List (List Char × List Char) :=
  relevant.map (fun it => (pyLower it.sect.title, it.file_path))

/-- Lookup in an association list in which the *last* binding for a key wins,
matching Python dict assignment order. -/
def lookupStr : List (List Char × List Char) → List Char → Option (List Char)
  | [], _ => none
  | (k, v) :: rest, key =>
    match lookupStr rest key with
    | some r => some r
    | none => if k = key then some v else none

/-- Python truthiness of an optional string: `None` and `""` are falsy. -/
def pyTruthyStr : Option (List Char) → Bool
  | none => false
  | some s => !s.isEmpty

/-- `AIService._enhance_suggestions_with_files`. -/
def enhanceSuggestions (suggs : List Suggestion) (relevant : List RankedSection) :
    List Suggestion :=
  let m := sectionToFileMap relevant
  suggs.map (fun s =>
    match lookupStr m (pyLower (s.sec.getD [])) with
    | some fp => if pyTruthyStr s.file_path then s else { s with file_path := some fp }
    | none => s)

/-- `AIService._build_context`: the prompt context is built from the first 5
ranked sections only, with each body truncated to 200 characters. -/
def buildContext (relevant : List RankedSection) : List Char :=
  match relevant with
  | [] => []
  | _ =>
    joinNl ((relevant.take 5).flatMap (fun it =>
      ["File: ".toList ++ it.file_path,
       "Section: ".toList ++ it.sect.title,
       "Content: ".toList ++ it.sect.content.take 200 ++ "...".toList,
       "---".toList]))

/-- `AIService.generate_doc_suggestions`.  `clientConfigured` models
`self.client` being non-`None`; `modelResult` the outcome of the single
`chat.completions.create` call (`Except.error` models any raised exception;
the whole `try` block returns the fallback set for the original query on any
exception); `jsonDec` models `json.loads` as in `parseSuggestions`. -/
def generateDocSuggestions (clientConfigured : Bool) (docs : List MdDocument)
    (modelResult : Except (List Char) (List Char))
    (jsonDec : List Char → Option (List Suggestion)) (query : List Char) :
    List Suggestion :=
  if !clientConfigured then getFallbackSuggestions query
  else
    match modelResult with
    | .error _ => getFallbackSuggestions query
    | .ok content =>
      let relevant := findRelevantSections query docs
      enhanceSuggestions (parseSuggestions jsonDec content) relevant

/-- A `results["success"]` entry of `FileService.apply_suggestions`. -/
structure SuccessEntry where
  suggestion_id : Option Int
  file_path : List Char
  message : List Char
deriving DecidableEq

/-- A `results["errors"]` entry of `FileService.apply_suggestions`. -/
structure ErrorEntry where
  suggestion_id : Option Int
  error : List Char
deriving DecidableEq

/-- The `results` dict of `FileService.apply_suggestions`. -/
structure ApplyResults where
  success : List SuccessEntry
  errors : List ErrorEntry
  backups : List (List Char)
deriving DecidableEq

/-- The filesystem operations used by the apply engine, as an oracle; an
`Except.error` carries `str(e)` of the raised exception. -/
structure FSOracle where
  pathExists : List Char → Bool
  copy2 : List Char → List Char → Except (List Char) Unit
  readText : List Char → Except (List Char) (List Char)
  writeText : List Char → List Char → Except (List Char) Unit

/-- `self.docs_root` (default `"docs"`). -/
def docsRoot : List Char := "docs".toList

/-- `self.backup_dir` (`"backups"`). -/
def backupDirS : List Char := "backups".toList

/-- `Path(p).name`: the part after the last `/`. -/
def pathNameL (p : List Char) : List Char :=
  (p.reverse.takeWhile (· ≠ '/')).reverse

/-- `Path(p).suffix` (pathlib: `name[i:]` for `i = name.rfind('.')` when
`0 < i < len(name) - 1`, else the empty string). -/
def pySuffix (p : List Char) : List Char :=
  let n := pathNameL p
  match n.reverse.findIdx? (· == '.') with
  | none => []
  | some k =>
    let i := n.length - 1 - k
    if 0 < i ∧ 0 < k then n.drop i else []

/-- `Path(p).stem`: the name without `pySuffix`. -/
def pyStem (p : List Char) : List Char :=
  let n := pathNameL p
  n.take (n.length - (pySuffix p).length)

/-- `FileService._create_backup` with the timestamp passed in: builds the
backup path `backups/<stem>_<ts><suffix>` and copies; an exception from
`shutil.copy2` propagates as `Except.error`. -/
def createBackup (o : FSOracle) (tsB fullPath : List Char) :
    Except (List Char) (List Char) :=
  let backupPath := backupDirS ++ '/' :: (pyStem fullPath ++ '_' :: tsB ++ pySuffix fullPath)
  match o.copy2 fullPath backupPath with
  | .ok _ => .ok backupPath
  | .error e => .error e

/-- `AIService` comment block appended by `_apply_suggestion_to_content`. -/
def commentBlock (tsC sectLabel suggText : List Char) : List Char :=
  "\n\n<!-- TODO: ".toList ++ tsC ++ " - ".toList ++ sectLabel ++
  " -->\n<!-- Suggestion: ".toList ++ suggText ++ " -->\n".toList

/-- `FileService._apply_suggestion_to_content` with the timestamp passed in. -/
def applySuggestionToContent (tsC content : List Char) (s : Suggestion) : List Char :=
  content ++ commentBlock tsC (s.sec.getD "General".toList) (s.sugg.getD [])

/-- `FileService._apply_single_suggestion`: read, append the comment block,
write; its own `try` turns any exception into `False`. -/
def applySingleSuggestion (o : FSOracle) (tsC fullPath : List Char)
    (s : Suggestion) : Bool :=
  match o.readText fullPath with
  | .error _ => false
  | .ok content =>
    match o.writeText fullPath (applySuggestionToContent tsC content s) with
    | .ok _ => true
    | .error _ => false

/-- The body of the loop of `FileService.apply_suggestions` for one
suggestion: the optional success entry, optional error entry and optional
backup record it appends. -/
def applyOne (o : FSOracle) (tsB tsC : List Char) (s : Suggestion) :
    Option SuccessEntry × Option ErrorEntry × Option (List Char) :=
  match s.file_path with
  | none => (none, some ⟨s.id, "No file path specified".toList⟩, none)
  | some fp =>
    if fp = [] then (none, some ⟨s.id, "No file path specified".toList⟩, none)
    else
      let fullPath := docsRoot ++ '/' :: fp
      if !o.pathExists fullPath then
        (none, some ⟨s.id, "File not found: ".toList ++ fp⟩, none)
      else
        match createBackup o tsB fullPath with
        | .error e => (none, some ⟨s.id, e⟩, none)
        | .ok bpath =>
          if applySingleSuggestion o tsC fullPath s then
            (some ⟨s.id, fp, "Successfully applied".toList⟩, none, some bpath)
          else
            (none, some ⟨s.id, "Failed to apply suggestion".toList⟩, some bpath)

/-- `FileService.apply_suggestions` with the two timestamps passed in. -/
def applySuggestions (o : FSOracle) (tsB tsC : List Char) :
    List Suggestion → ApplyResults
  | [] => ⟨[], [], []⟩
  | s :: rest =>
    let (su, er, bp) := applyOne o tsB tsC s
    let r := applySuggestions o tsB tsC rest
    ⟨su.toList ++ r.success, er.toList ++ r.errors, bp.toList ++ r.backups⟩


/-! ### Helper lemmas -/

theorem drop_len_takeWhile (p : Char → Bool) (l : List Char) :
    l.drop (l.takeWhile p).length = l.dropWhile p := by
  induction l with
  | nil => rfl
  | cons c cs ih =>
    by_cases h : p c
    · simp [List.takeWhile_cons, List.dropWhile_cons, h, ih]
    · simp [List.takeWhile_cons, List.dropWhile_cons, h]

theorem dropWhile_head_false (p : Char → Bool) (l : List Char) (c : Char) (t : List Char)
    (h : l.dropWhile p = c :: t) : p c = false := by
  have := List.head_dropWhile_not p (l := l) (by simp [h])
  simpa [h] using this

theorem takeWhile_replicate_append (p : Char → Bool) (a : Char) (ha : p a = true)
    (m : Nat) (l : List Char) :
    (List.replicate m a ++ l).takeWhile p = List.replicate m a ++ l.takeWhile p := by
  induction m with
  | zero => simp
  | succ m ih => simp [List.replicate_succ, List.takeWhile_cons, ha, ih]

/-- The fallback suggestions both carry a non-empty `file_path`, so
`_enhance_suggestions_with_files` leaves them unchanged. -/
theorem enhance_fallback (q' : List Char) (relevant : List RankedSection) :
    enhanceSuggestions (getFallbackSuggestions q') relevant = getFallbackSuggestions q' := by
  simp only [enhanceSuggestions, getFallbackSuggestions, List.map]
  cases h1 : lookupStr (sectionToFileMap relevant) (pyLower ((some "General".toList).getD [])) <;>
    cases h2 : lookupStr (sectionToFileMap relevant) (pyLower ((some "Usage".toList).getD [])) <;>
      simp [h1, h2, pyTruthyStr]

/-! ### C3 -/

/-- C3: when no language-model client is configured, `generate_doc_suggestions`
returns the fixed two-suggestion fallback set for the query — id 1 with text
"Review and update documentation based on: <query>" and path "README.md",
id 2 with path "docs/usage.md" — and the result does not depend on the model
oracle (no model call is made). -/
theorem C3_no_client_fixed_fallback (query : List Char) (docs : List MdDocument)
    (modelResult : Except (List Char) (List Char))
    (jsonDec : List Char → Option (List Suggestion)) :
    generateDocSuggestions false docs modelResult jsonDec query = getFallbackSuggestions query
    ∧ (getFallbackSuggestions query).map (·.id) = [some 1, some 2]
    ∧ (getFallbackSuggestions query).map (·.file_path) =
        [some "README.md".toList, some "docs/usage.md".toList]
    ∧ (getFallbackSuggestions query).map (·.sugg) =
        [some ("Review and update documentation based on: ".toList ++ query),
         some "Update usage examples and code snippets to reflect the changes mentioned in the query.".toList] :=
  ⟨rfl, rfl, rfl, rfl⟩

/-! ### C2 -/

/-- C2: any failure of the model-call-and-parse sequence is swallowed and the
fixed fallback suggestion set is returned. A raised model call (`Except.error`)
yields the fallback set for the original query; a located JSON array whose
decoding raises yields the fallback set (for the query "general update"); in
no case does `generate_doc_suggestions` propagate the failure. -/
theorem C2_failures_swallowed (query e content : List Char)
    (docs : List MdDocument) (jsonDec : List Char → Option (List Suggestion)) :
    (generateDocSuggestions true docs (Except.error e) jsonDec query = getFallbackSuggestions query)
    ∧ (∀ m, jsonArrayMatch content = some m → jsonDec m = none →
        generateDocSuggestions true docs (Except.ok content) jsonDec query =
          getFallbackSuggestions "general update".toList) := by
  refine ⟨rfl, fun m hm hd => ?_⟩
  simp only [generateDocSuggestions, parseSuggestions, hm, hd, Bool.not_true,
    Bool.false_eq_true, if_false]
  exact enhance_fallback _ _

theorem C2_witness :
    generateDocSuggestions true [] (Except.error "boom".toList) (fun _ => none) "q".toList
      = getFallbackSuggestions "q".toList
    ∧ generateDocSuggestions true [] (Except.ok "[x]".toList) (fun _ => none) "q".toList
      = getFallbackSuggestions "general update".toList := by
  have h := C2_failures_swallowed "q".toList "boom".toList "[x]".toList [] (fun _ => none)
  exact ⟨h.1, h.2 "[x]".toList (by decide) rfl⟩

/-! ### C8 -/

/-- C8: applying a suggestion to a file's content is a pure append of a
delimited comment block built from the timestamp, the suggestion's section
label and its body text; the previous content is preserved verbatim as a
prefix, and the result does not depend on the suggestion's `line_number`. -/
theorem C8_pure_append (tsC content : List Char) (s : Suggestion) :
    applySuggestionToContent tsC content s =
      content ++ ("\n\n<!-- TODO: ".toList ++ tsC ++ " - ".toList ++ s.sec.getD "General".toList ++
        " -->\n<!-- Suggestion: ".toList ++ s.sugg.getD [] ++ " -->\n".toList)
    ∧ (applySuggestionToContent tsC content s).take content.length = content
    ∧ (∀ n : Option Int, applySuggestionToContent tsC content { s with line_number := n } =
        applySuggestionToContent tsC content s) := by
  refine ⟨by simp [applySuggestionToContent, commentBlock], ?_, fun n => rfl⟩
  simp [applySuggestionToContent, List.take_left]

/-! ### C5 -/

/-- The heading predicate as the claim states it: 1–6 `#` characters followed
by whitespace and a title that is non-empty after trimming. -/
def specIsHeadingClaim (line : List Char) : Bool :=
  let m := (line.takeWhile (· == '#')).length
  decide (1 ≤ m ∧ m ≤ 6) &&
    (match line.drop m with
     | [] => false
     | c :: cs => pyIsSpace c && !(pyStrip (c :: cs)).isEmpty)

/-- C5 counterexample: the line "#  " (one hash, two spaces) is matched as a
heading by the code — the regex `^(#{1,6})\s+(.+)$` lets `(.+)` consume the
second space — and opens a section with empty title, although its title trims
to the empty string, so the claimed "iff" (and "does not open a new section")
fails. -/
theorem C5_counterexample :
    headerMatch "#  ".toList = some (1, [])
    ∧ specIsHeadingClaim "#  ".toList = false
    ∧ extractSections "#  ".toList = [⟨[], 1, 1, [], 1⟩] := by decide

/-- Unfolding of `headerMatch` without the `let`. -/
theorem headerMatch_eq (line : List Char) :
    headerMatch line =
      (if 1 ≤ (line.takeWhile (· == '#')).length ∧ (line.takeWhile (· == '#')).length ≤ 6 then
        match line.drop (line.takeWhile (· == '#')).length with
        | [] => none
        | c :: cs =>
          if pyIsSpace c = true ∧ cs ≠ [] then
            some ((line.takeWhile (· == '#')).length, pyStrip (c :: cs))
          else none
      else none) := rfl

/-- C5 amended: a line is matched as a heading (with level `m` and stripped
title `t`) iff it consists of 1–6 `#` characters followed by one whitespace
character and at least one further character (of any kind); the title is the
remainder after the hashes, trimmed — possibly empty. -/
theorem C5_amended (line : List Char) (m : Nat) (t : List Char) :
    headerMatch line = some (m, t) ↔
      ∃ c rest, 1 ≤ m ∧ m ≤ 6 ∧ pyIsSpace c = true ∧ rest ≠ [] ∧
        line = List.replicate m '#' ++ c :: rest ∧ t = pyStrip (c :: rest) := by
  constructor
  · intro h
    rw [headerMatch_eq] at h
    split at h
    case isTrue hm =>
      cases hdrop : line.drop (line.takeWhile (· == '#')).length with
      | nil => rw [hdrop] at h; exact absurd h (by simp)
      | cons c cs =>
        rw [hdrop] at h
        dsimp only at h
        by_cases hc : pyIsSpace c = true ∧ cs ≠ []
        case pos =>
          rw [if_pos hc] at h
          have hmt : m = (line.takeWhile (· == '#')).length ∧ t = pyStrip (c :: cs) := by
            simp only [Option.some.injEq, Prod.mk.injEq] at h
            exact ⟨h.1.symm, h.2.symm⟩
          refine ⟨c, cs, hmt.1 ▸ hm.1, hmt.1 ▸ hm.2, hc.1, hc.2, ?_, hmt.2⟩
          have htw : line.takeWhile (· == '#') = List.replicate m '#' := by
            rw [List.eq_replicate_iff]
            exact ⟨by rw [hmt.1], fun b hb => by simpa using List.mem_takeWhile_imp hb⟩
          calc line = line.takeWhile (· == '#') ++ line.drop (line.takeWhile (· == '#')).length := by
                rw [drop_len_takeWhile, List.takeWhile_append_dropWhile]
            _ = List.replicate m '#' ++ c :: cs := by rw [hdrop, htw]
        case neg => rw [if_neg hc] at h; exact absurd h (by simp)
    case isFalse => exact absurd h (by simp)
  · rintro ⟨c, rest, h1, h6, hsp, hne, hline, ht⟩
    have hchash : (c == '#') = false := by
      cases hceq : c == '#'
      · rfl
      · exfalso
        have : c = '#' := by simpa using hceq
        rw [this] at hsp
        exact absurd hsp (by decide)
    have htw : line.takeWhile (· == '#') = List.replicate m '#' := by
      rw [hline, takeWhile_replicate_append _ _ (by simp), List.takeWhile_cons, hchash]
      simp
    have hlen : (line.takeWhile (· == '#')).length = m := by simp [htw]
    have hdrop : line.drop m = c :: rest := by
      have := List.drop_left (List.replicate m '#') (c :: rest)
      rw [List.length_replicate] at this
      rw [hline, this]
    rw [headerMatch_eq, hlen, if_pos ⟨h1, h6⟩, hdrop]
    simp [hsp, hne, ht]

theorem C5_amended_witness :
    headerMatch "## t".toList = some (2, "t".toList) := by
  exact (C5_amended "## t".toList 2 "t".toList).mpr
    ⟨' ', "t".toList, by decide, by decide, by decide, by decide, by decide, by decide⟩

/-! ### C6 -/

/-- Unfolding of `jsonArrayMatch` in terms of `dropWhile`. -/
theorem jsonArrayMatch_eq (s : List Char) :
    jsonArrayMatch s =
      (match s.dropWhile (· ≠ '[') with
      | [] => none
      | c :: rest =>
        match ((c :: rest).reverse.dropWhile (· ≠ ']')).reverse with
        | [] => none
        | d :: core => some (d :: core)) := by
  unfold jsonArrayMatch
  simp only [drop_len_takeWhile]

/-- The located substring runs from the first `[` of the response to its last
`]`: the text before it has no `[`, the text after it has no `]`, and it
starts with `[` and ends with `]`. -/
theorem jsonArrayMatch_spec (s m : List Char) (h : jsonArrayMatch s = some m) :
    ∃ pre post, s = pre ++ m ++ post ∧ pre.all (· ≠ '[') = true ∧ post.all (· ≠ ']') = true
      ∧ m.head? = some '[' ∧ m.getLast? = some ']' := by
  rw [jsonArrayMatch_eq] at h
  cases hdw : s.dropWhile (· ≠ '[') with
  | nil => rw [hdw] at h; exact absurd h (by simp)
  | cons c rest =>
    rw [hdw] at h
    dsimp only at h
    have hc : c = '[' := by
      have := dropWhile_head_false (· ≠ '[') s c rest hdw
      simpa using this
    cases hrev : ((c :: rest).reverse.dropWhile (· ≠ ']')).reverse with
    | nil => rw [hrev] at h; exact absurd h (by simp)
    | cons d core =>
      rw [hrev] at h
      dsimp only at h
      have hm : m = d :: core := by simpa using h.symm
      have hB : (c :: rest).reverse.dropWhile (· ≠ ']') = (d :: core).reverse := by
        have := congrArg List.reverse hrev
        simpa using this
      have hsplit : c :: rest =
          (d :: core) ++ ((c :: rest).reverse.takeWhile (· ≠ ']')).reverse := by
        have h0 := List.takeWhile_append_dropWhile (p := (· ≠ ']')) (l := (c :: rest).reverse)
        have h1 := congrArg List.reverse h0
        rw [List.reverse_append, List.reverse_reverse, hB, List.reverse_reverse] at h1
        exact h1.symm
      refine ⟨s.takeWhile (· ≠ '['), ((c :: rest).reverse.takeWhile (· ≠ ']')).reverse,
        ?_, ?_, ?_, ?_, ?_⟩
      · calc s = s.takeWhile (· ≠ '[') ++ s.dropWhile (· ≠ '[') :=
              (List.takeWhile_append_dropWhile _ _).symm
          _ = s.takeWhile (· ≠ '[') ++ (c :: rest) := by rw [hdw]
          _ = s.takeWhile (· ≠ '[') ++ m ++
                ((c :: rest).reverse.takeWhile (· ≠ ']')).reverse := by
              conv_lhs => rw [hsplit]
              rw [hm, List.append_assoc]
      · rw [List.all_eq_true]
        intro x hx
        exact List.mem_takeWhile_imp (p := fun y => decide (y ≠ '[')) hx
      · rw [List.all_eq_true]
        intro x hx
        exact List.mem_takeWhile_imp (p := fun y => decide (y ≠ ']')) (List.mem_reverse.mp hx)
      · have hcd : c = d := by
          have := congrArg List.head? hsplit
          simpa using this
        rw [hm]
        simp [← hcd, hc]
      · rw [hm, ← hrev, List.getLast?_reverse]
        cases hBc : (c :: rest).reverse.dropWhile (· ≠ ']') with
        | nil => rw [hBc] at hB; simp at hB
        | cons b bs =>
          have hbf := dropWhile_head_false (· ≠ ']') ((c :: rest).reverse) b bs hBc
          have hb : b = ']' := by simpa using hbf
          simp [hBc, hb]

/-- The response text of the C6 counterexample: it contains a dash-marker
suggestion line and a bracketed substring that is not valid JSON. -/
def c6content : List Char := "- do thing [a b]".toList

/-- C6 counterexample: on a response whose located JSON array substring fails
to decode, `_parse_suggestions` returns the canned fallback set directly (its
own `except` catches the `json.loads` error) instead of falling back to the
structured text parser, whose result differs. -/
theorem C6_counterexample :
    jsonArrayMatch c6content = some "[a b]".toList
    ∧ parseSuggestions (fun _ => none) c6content = getFallbackSuggestions "general update".toList
    ∧ parseTextSuggestions c6content =
        [⟨some 1, some "General".toList, some "do thing [a b]".toList, none, none⟩]
    ∧ parseSuggestions (fun _ => none) c6content ≠ parseTextSuggestions c6content := by decide

/-- C6 amended: parsing first attempts to locate a JSON array substring by a
greedy match from the first `[` to the last `]` across the whole response and
decode it, accepting the decoded array as-is on success; when no such
substring exists it falls back to the structured text parser; but when
decoding of the located substring fails it returns the canned fallback
suggestion set (for the query "general update") directly. -/
theorem C6_amended (jsonDec : List Char → Option (List Suggestion)) (content : List Char) :
    (jsonArrayMatch content = none → parseSuggestions jsonDec content = parseTextSuggestions content)
    ∧ (∀ m, jsonArrayMatch content = some m →
        (∃ pre post, content = pre ++ m ++ post ∧ pre.all (· ≠ '[') = true
          ∧ post.all (· ≠ ']') = true ∧ m.head? = some '[' ∧ m.getLast? = some ']')
        ∧ (∀ s, jsonDec m = some s → parseSuggestions jsonDec content = s)
        ∧ (jsonDec m = none → parseSuggestions jsonDec content =
            getFallbackSuggestions "general update".toList)) := by
  refine ⟨fun h => by simp [parseSuggestions, h], fun m hm =>
    ⟨jsonArrayMatch_spec content m hm,
     fun s hs => by simp [parseSuggestions, hm, hs],
     fun hd => by simp [parseSuggestions, hm, hd]⟩⟩

theorem C6_amended_witness :
    parseSuggestions (fun _ => some []) "x[1]y".toList = ([] : List Suggestion)
    ∧ parseSuggestions (fun _ => none) "no json".toList = parseTextSuggestions "no json".toList := by
  have h1 := C6_amended (fun _ => some []) "x[1]y".toList
  have h2 := C6_amended (fun _ => none) "no json".toList
  exact ⟨(h1.2 "[1]".toList (by decide)).2.1 [] rfl, h2.1 (by decide)⟩

/-! ### C9 -/

/-- Oracle for the C9 counterexample: the file exists, backup and read
succeed, and the write raises an exception with message "disk full". -/
def c9oracle : FSOracle :=
  ⟨fun _ => true, fun _ _ => Except.ok (), fun _ => Except.ok [],
   fun _ _ => Except.error "disk full".toList⟩

/-- The suggestion used in the C9 counterexample. -/
def c9sugg : Suggestion := ⟨some 7, none, none, some "a.md".toList, none⟩

/-- C9 counterexample: when the write raises ("disk full"), the recorded
error entry carries the fixed message "Failed to apply suggestion" — the
inner `try` of `_apply_single_suggestion` swallows the exception and returns
`False` — not the exception's message as claimed. -/
theorem C9_counterexample :
    (applySuggestions c9oracle "20240101_000000".toList "2024-01-01 00:00:00".toList
        [c9sugg]).errors = [⟨some 7, "Failed to apply suggestion".toList⟩]
    ∧ "Failed to apply suggestion".toList ≠ "disk full".toList := by decide

/-- C9 amended: for a suggestion with an existing target file, an exception
raised during the backup is recorded as an error entry carrying the
exception's message (with the suggestion id); a failure during the read or
write inside `_apply_single_suggestion` is recorded as an error entry with
the fixed message "Failed to apply suggestion" (the backup having been
recorded already); and on a successful write a success entry with suggestion
id, file path and the message "Successfully applied" is recorded. -/
theorem C9_amended (o : FSOracle) (tsB tsC fp c : List Char) (s : Suggestion)
    (hfp : s.file_path = some fp) (hne : fp ≠ [])
    (hex : o.pathExists (docsRoot ++ '/' :: fp) = true) :
    (∀ e, o.copy2 (docsRoot ++ '/' :: fp)
        (backupDirS ++ '/' :: (pyStem (docsRoot ++ '/' :: fp) ++ '_' :: tsB ++
          pySuffix (docsRoot ++ '/' :: fp))) = Except.error e →
      applySuggestions o tsB tsC [s] = ⟨[], [⟨s.id, e⟩], []⟩)
    ∧ (o.copy2 (docsRoot ++ '/' :: fp)
        (backupDirS ++ '/' :: (pyStem (docsRoot ++ '/' :: fp) ++ '_' :: tsB ++
          pySuffix (docsRoot ++ '/' :: fp))) = Except.ok () →
       (∀ e, o.readText (docsRoot ++ '/' :: fp) = Except.error e →
          applySuggestions o tsB tsC [s] =
            ⟨[], [⟨s.id, "Failed to apply suggestion".toList⟩],
             [backupDirS ++ '/' :: (pyStem (docsRoot ++ '/' :: fp) ++ '_' :: tsB ++
               pySuffix (docsRoot ++ '/' :: fp))]⟩)
       ∧ (o.readText (docsRoot ++ '/' :: fp) = Except.ok c →
          (∀ e, o.writeText (docsRoot ++ '/' :: fp)
              (applySuggestionToContent tsC c s) = Except.error e →
            applySuggestions o tsB tsC [s] =
              ⟨[], [⟨s.id, "Failed to apply suggestion".toList⟩],
               [backupDirS ++ '/' :: (pyStem (docsRoot ++ '/' :: fp) ++ '_' :: tsB ++
                 pySuffix (docsRoot ++ '/' :: fp))]⟩)
          ∧ (o.writeText (docsRoot ++ '/' :: fp)
              (applySuggestionToContent tsC c s) = Except.ok () →
            applySuggestions o tsB tsC [s] =
              ⟨[⟨s.id, fp, "Successfully applied".toList⟩], [],
               [backupDirS ++ '/' :: (pyStem (docsRoot ++ '/' :: fp) ++ '_' :: tsB ++
                 pySuffix (docsRoot ++ '/' :: fp))]⟩))) := by
  constructor
  · intro e hcopy
    simp only [List.cons_append, List.append_assoc] at hcopy
    simp [applySuggestions, applyOne, createBackup, applySingleSuggestion,
      hfp, hne, hex, hcopy]
  · intro hcopy
    simp only [List.cons_append, List.append_assoc] at hcopy
    constructor
    · intro e hread
      simp [applySuggestions, applyOne, createBackup, applySingleSuggestion,
        hfp, hne, hex, hcopy, hread]
    · intro hread
      constructor
      · intro e hwrite
        simp [applySuggestions, applyOne, createBackup, applySingleSuggestion,
          hfp, hne, hex, hcopy, hread, hwrite]
      · intro hwrite
        simp [applySuggestions, applyOne, createBackup, applySingleSuggestion,
          hfp, hne, hex, hcopy, hread, hwrite]

/-- Oracle for the C9 witness, backup branch: `copy2` raises "denied". -/
def w9backup : FSOracle :=
  ⟨fun _ => true, fun _ _ => Except.error "denied".toList, fun _ => Except.ok [],
   fun _ _ => Except.ok ()⟩

/-- Oracle for the C9 witness, read branch: `read_text` raises "perm". -/
def w9read : FSOracle :=
  ⟨fun _ => true, fun _ _ => Except.ok (), fun _ => Except.error "perm".toList,
   fun _ _ => Except.ok ()⟩

/-- Oracle for the C9 witness, success branch: everything succeeds. -/
def w9ok : FSOracle :=
  ⟨fun _ => true, fun _ _ => Except.ok (), fun _ => Except.ok "x".toList,
   fun _ _ => Except.ok ()⟩

theorem C9_amended_witness :
    applySuggestions w9backup "T".toList "U".toList [c9sugg] =
      ⟨[], [⟨some 7, "denied".toList⟩], []⟩
    ∧ applySuggestions w9read "T".toList "U".toList [c9sugg] =
      ⟨[], [⟨some 7, "Failed to apply suggestion".toList⟩], ["backups/a_T.md".toList]⟩
    ∧ applySuggestions w9ok "T".toList "U".toList [c9sugg] =
      ⟨[⟨some 7, "a.md".toList, "Successfully applied".toList⟩], [],
       ["backups/a_T.md".toList]⟩
    ∧ applySuggestions c9oracle "T".toList "U".toList [c9sugg] =
      ⟨[], [⟨some 7, "Failed to apply suggestion".toList⟩], ["backups/a_T.md".toList]⟩ := by
  have h1 := C9_amended w9backup "T".toList "U".toList "a.md".toList [] c9sugg
    rfl (by decide) rfl
  have h4 := C9_amended w9read "T".toList "U".toList "a.md".toList [] c9sugg
    rfl (by decide) rfl
  have h2 := C9_amended w9ok "T".toList "U".toList "a.md".toList "x".toList c9sugg
    rfl (by decide) rfl
  have h3 := C9_amended c9oracle "T".toList "U".toList "a.md".toList [] c9sugg
    rfl (by decide) rfl
  have hbp : backupDirS ++ '/' :: (pyStem (docsRoot ++ '/' :: "a.md".toList) ++ '_' :: "T".toList ++
      pySuffix (docsRoot ++ '/' :: "a.md".toList)) = "backups/a_T.md".toList := by decide
  refine ⟨?_, ?_, ?_, ?_⟩
  · have := h1.1 "denied".toList rfl
    simpa using this
  · have := (h4.2 rfl).1 "perm".toList rfl
    rw [hbp] at this
    simpa using this
  · have := ((h2.2 rfl).2 rfl).2 rfl
    rw [hbp] at this
    simpa using this
  · have := ((h3.2 rfl).2 rfl).1 "disk full".toList rfl
    rw [hbp] at this
    simpa using this

/-! ### C10 -/

/-- Corpus for the C10 counterexample: six documents, each with one section
whose title contains the query keyword, so the ranker returns six sections. -/
def c10docs : List MdDocument :=
  [⟨"p0.md".toList, "# h0 zz".toList⟩, ⟨"p1.md".toList, "# h1 zz".toList⟩,
   ⟨"p2.md".toList, "# h2 zz".toList⟩, ⟨"p3.md".toList, "# h3 zz".toList⟩,
   ⟨"p4.md".toList, "# h4 zz".toList⟩, ⟨"p5.md".toList, "# h5 zz".toList⟩]

/-- A suggestion without a file path whose section title matches the sixth
ranked section. -/
def c10sugg : Suggestion := ⟨some 3, some "h5 zz".toList, some "x".toList, none, none⟩

/-- C10 counterexample: the section-title → file-path mapping is built from
the whole ranked list (here six sections), not only from the top-5 context
used for the prompt: a suggestion whose section matches the sixth ranked
section receives its file path, although the top-5 mapping has no entry for
that title. -/
theorem C10_counterexample :
    (findRelevantSections "zz".toList c10docs).length = 6
    ∧ lookupStr (sectionToFileMap ((findRelevantSections "zz".toList c10docs).take 5))
        (pyLower "h5 zz".toList) = none
    ∧ enhanceSuggestions [c10sugg] (findRelevantSections "zz".toList c10docs) =
        [⟨some 3, some "h5 zz".toList, some "x".toList, some "p5.md".toList, none⟩]
    ∧ generateDocSuggestions true c10docs (Except.ok "[j]".toList)
        (fun _ => some [c10sugg]) "zz".toList =
        [⟨some 3, some "h5 zz".toList, some "x".toList, some "p5.md".toList, none⟩] := by decide

/-- C10 amended: the post-processing step fills in the `file_path` of each
suggestion lacking one (absent, `None`, or empty) by a case-insensitive
lookup of its section title in the mapping built from the **entire ranked
list** returned by the ranker (up to 10 sections, later entries winning on
duplicate titles) — not only from the top-5 context used for the prompt;
suggestions already carrying a non-empty `file_path` are left unchanged; and
on a successful model call and parse, `generate_doc_suggestions` applies
exactly this step to the parsed suggestions with the full ranked list. -/
theorem C10_amended (suggs : List Suggestion) (relevant : List RankedSection)
    (k : Nat) (s : Suggestion) (hk : suggs[k]? = some s) :
    (enhanceSuggestions suggs relevant).length = suggs.length
    ∧ (pyTruthyStr s.file_path = true → (enhanceSuggestions suggs relevant)[k]? = some s)
    ∧ (pyTruthyStr s.file_path = false →
        (enhanceSuggestions suggs relevant)[k]? = some (
          match lookupStr (sectionToFileMap relevant) (pyLower (s.sec.getD [])) with
          | some fp => { s with file_path := some fp }
          | none => s))
    ∧ (∀ (docs : List MdDocument) (content query : List Char)
         (jsonDec : List Char → Option (List Suggestion)) (m : List Char),
        jsonArrayMatch content = some m → jsonDec m = some suggs →
        generateDocSuggestions true docs (Except.ok content) jsonDec query =
          enhanceSuggestions suggs (findRelevantSections query docs)) := by
  refine ⟨by simp [enhanceSuggestions], ?_, ?_, ?_⟩
  · intro htr
    simp only [enhanceSuggestions, List.getElem?_map, hk, Option.map_some']
    cases hl : lookupStr (sectionToFileMap relevant) (pyLower (s.sec.getD [])) <;>
      simp [hl, htr]
  · intro htr
    simp only [enhanceSuggestions, List.getElem?_map, hk, Option.map_some']
    cases hl : lookupStr (sectionToFileMap relevant) (pyLower (s.sec.getD [])) <;>
      simp [hl, htr]
  · intro docs content query jsonDec m hm hd
    simp [generateDocSuggestions, parseSuggestions, hm, hd]

theorem C10_amended_witness :
    (enhanceSuggestions [c10sugg] (findRelevantSections "zz".toList c10docs))[0]? =
      some ⟨some 3, some "h5 zz".toList, some "x".toList, some "p5.md".toList, none⟩ := by
  have h := C10_amended [c10sugg] (findRelevantSections "zz".toList c10docs) 0 c10sugg rfl
  have h2 := h.2.2.1 (by decide)
  rw [h2]
  decide

/-! ### C7 -/

/-- `" ".join` of body segments. -/
def joinSpace : List (List Char) → List Char
  | [] => []
  | [l] => l
  | l :: l' :: ls => l ++ ' ' :: joinSpace (l' :: ls)

/-- The suggestion built from a running id and accumulated body segments. -/
def mkTextSugg (i : Nat) (segs : List (List Char)) : Suggestion :=
  ⟨some (i : Int), some "General".toList, some (joinSpace segs), none, none⟩

/-- The structured-text parser as the (amended) specification words it: an
explicit two-state machine over stripped lines.  `e` counts emitted
suggestions; the state holds the open suggestion's id and its body segments
(first the text after the marker — after the first `.` when the line contains
one, otherwise after the first character — then each subsequent non-empty
non-marker line). -/
def specTextMachine : List (List Char) → Nat → Option (Nat × List (List Char)) → List Suggestion
  | [], _, none => []
  | [], _, some (i, segs) => [mkTextSugg i segs]
  | l :: rest, e, st =>
    let l' := pyStrip l
    if markerLine l' then
      match st with
      | none => specTextMachine rest e (some (e + 1, [markerBody l']))
      | some (i, segs) =>
        mkTextSugg i segs :: specTextMachine rest (e + 1) (some (e + 2, [markerBody l']))
    else if l' = [] then specTextMachine rest e st
    else
      match st with
      | none => specTextMachine rest e none
      | some (i, segs) => specTextMachine rest e (some (i, segs ++ [l']))

/-- The wrapper corresponding to `_parse_text_suggestions`: run the machine,
and emit the fallback set for "general update" if no suggestion was built. -/
def specTextParse (content : List Char) : List Suggestion :=
  let out := specTextMachine (splitNl content) 0 none
  if out = [] then getFallbackSuggestions "general update".toList else out

theorem joinSpace_append (segs : List (List Char)) (l : List Char) (h : segs ≠ []) :
    joinSpace (segs ++ [l]) = joinSpace segs ++ ' ' :: l := by
  induction segs with
  | nil => exact absurd rfl h
  | cons a as ih =>
    cases as with
    | nil => rfl
    | cons b bs =>
      have h2 := ih (by simp)
      calc joinSpace ((a :: b :: bs) ++ [l]) = a ++ ' ' :: joinSpace ((b :: bs) ++ [l]) := rfl
        _ = a ++ ' ' :: (joinSpace (b :: bs) ++ ' ' :: l) := by rw [h2]
        _ = (a ++ ' ' :: joinSpace (b :: bs)) ++ ' ' :: l := by simp
        _ = joinSpace (a :: b :: bs) ++ ' ' :: l := rfl

theorem parseTextAux_cons_marker (l : List Char) (rest : List (List Char))
    (acc : List Suggestion) (cur : Option Suggestion)
    (h : markerLine (pyStrip l) = true) :
    parseTextAux (l :: rest) acc cur =
      parseTextAux rest (match cur with | none => acc | some c => acc ++ [c])
        (some ⟨some (((match cur with
            | none => acc | some c => acc ++ [c] : List Suggestion).length : Int) + 1),
          some "General".toList, some (markerBody (pyStrip l)), none, none⟩) := by
  simp [parseTextAux, h]

theorem parseTextAux_cons_none (l : List Char) (rest : List (List Char))
    (acc : List Suggestion) (h : markerLine (pyStrip l) = false) :
    parseTextAux (l :: rest) acc none = parseTextAux rest acc none := by
  simp [parseTextAux, h]

theorem parseTextAux_cons_blank (l : List Char) (rest : List (List Char))
    (acc : List Suggestion) (c : Suggestion) (_h : markerLine (pyStrip l) = false)
    (hb : pyStrip l = []) :
    parseTextAux (l :: rest) acc (some c) = parseTextAux rest acc (some c) := by
  simp [parseTextAux, hb]
  intro hfalse
  exact absurd hfalse (by decide)

theorem parseTextAux_cons_cont (l : List Char) (rest : List (List Char))
    (acc : List Suggestion) (c : Suggestion) (h : markerLine (pyStrip l) = false)
    (hb : pyStrip l ≠ []) :
    parseTextAux (l :: rest) acc (some c) =
      parseTextAux rest acc (some { c with sugg := some (c.sugg.getD [] ++ ' ' :: pyStrip l) }) := by
  simp [parseTextAux, h, hb]

theorem machine_cons_marker_none (l : List Char) (rest : List (List Char)) (e : Nat)
    (h : markerLine (pyStrip l) = true) :
    specTextMachine (l :: rest) e none =
      specTextMachine rest e (some (e + 1, [markerBody (pyStrip l)])) := by
  simp [specTextMachine, h]

theorem machine_cons_marker_some (l : List Char) (rest : List (List Char)) (e i : Nat)
    (segs : List (List Char)) (h : markerLine (pyStrip l) = true) :
    specTextMachine (l :: rest) e (some (i, segs)) =
      mkTextSugg i segs ::
        specTextMachine rest (e + 1) (some (e + 2, [markerBody (pyStrip l)])) := by
  simp [specTextMachine, h]

theorem machine_cons_none (l : List Char) (rest : List (List Char)) (e : Nat)
    (h : markerLine (pyStrip l) = false) :
    specTextMachine (l :: rest) e none = specTextMachine rest e none := by
  by_cases hb : pyStrip l = [] <;> simp [specTextMachine, h, hb]
  intro hfalse
  exact absurd hfalse (by decide)

theorem machine_cons_blank (l : List Char) (rest : List (List Char)) (e : Nat)
    (st : Option (Nat × List (List Char))) (_h : markerLine (pyStrip l) = false)
    (hb : pyStrip l = []) :
    specTextMachine (l :: rest) e st = specTextMachine rest e st := by
  simp [specTextMachine, hb]
  intro hfalse
  exact absurd hfalse (by decide)

theorem machine_cons_cont (l : List Char) (rest : List (List Char)) (e i : Nat)
    (segs : List (List Char)) (h : markerLine (pyStrip l) = false)
    (hb : pyStrip l ≠ []) :
    specTextMachine (l :: rest) e (some (i, segs)) =
      specTextMachine rest e (some (i, segs ++ [pyStrip l])) := by
  simp [specTextMachine, h, hb]

theorem parseTextAux_machine (lines : List (List Char)) :
    ∀ (acc : List Suggestion) (st : Option (Nat × List (List Char))),
      (∀ i segs, st = some (i, segs) → segs ≠ []) →
      parseTextAux lines acc (st.map fun p => mkTextSugg p.1 p.2) =
        acc ++ specTextMachine lines acc.length st := by
  induction lines with
  | nil =>
    intro acc st _
    cases st with
    | none => simp [parseTextAux, specTextMachine]
    | some p => cases p with
      | mk i segs => simp [parseTextAux, specTextMachine]
  | cons l rest ih =>
    intro acc st hst
    by_cases hml : markerLine (pyStrip l) = true
    · cases st with
      | none =>
        rw [Option.map_none', parseTextAux_cons_marker l rest acc none hml,
          machine_cons_marker_none l rest acc.length hml]
        have hmk : (⟨some ((acc.length : Int) + 1), some "General".toList,
            some (markerBody (pyStrip l)), none, none⟩ : Suggestion) =
            mkTextSugg (acc.length + 1) [markerBody (pyStrip l)] := by
          simp [mkTextSugg, joinSpace]
        rw [show (match (none : Option Suggestion) with
            | none => acc | some c => acc ++ [c]) = acc from rfl]
        rw [hmk]
        exact ih acc (some (acc.length + 1, [markerBody (pyStrip l)]))
          (by intro i segs hs; cases hs; simp)
      | some p =>
        obtain ⟨i, segs⟩ := p
        rw [Option.map_some', parseTextAux_cons_marker l rest acc (some (mkTextSugg i segs)) hml,
          machine_cons_marker_some l rest acc.length i segs hml]
        rw [show (match (some (mkTextSugg i segs) : Option Suggestion) with
            | none => acc | some c => acc ++ [c]) = acc ++ [mkTextSugg i segs] from rfl]
        have hmk : (⟨some (((acc ++ [mkTextSugg i segs]).length : Int) + 1),
            some "General".toList, some (markerBody (pyStrip l)), none, none⟩ : Suggestion) =
            mkTextSugg (acc.length + 2) [markerBody (pyStrip l)] := by
          simp [mkTextSugg, joinSpace]
          ring
        rw [hmk]
        have := ih (acc ++ [mkTextSugg i segs]) (some (acc.length + 2, [markerBody (pyStrip l)]))
          (by intro i' segs' hs; cases hs; simp)
        rw [Option.map_some'] at this
        rw [this]
        simp
    · have hml' : markerLine (pyStrip l) = false := by simpa using hml
      cases st with
      | none =>
        rw [Option.map_none', parseTextAux_cons_none l rest acc hml',
          machine_cons_none l rest acc.length hml']
        have := ih acc none (by simp)
        rw [Option.map_none'] at this
        exact this
      | some p =>
        obtain ⟨i, segs⟩ := p
        have hsegs : segs ≠ [] := hst i segs rfl
        by_cases hb : pyStrip l = []
        · rw [Option.map_some', parseTextAux_cons_blank l rest acc (mkTextSugg i segs) hml' hb,
            machine_cons_blank l rest acc.length (some (i, segs)) hml' hb]
          have := ih acc (some (i, segs)) hst
          rw [Option.map_some'] at this
          exact this
        · rw [Option.map_some', parseTextAux_cons_cont l rest acc (mkTextSugg i segs) hml' hb,
            machine_cons_cont l rest acc.length i segs hml' hb]
          have hupd : ({ mkTextSugg i segs with
              sugg := some ((mkTextSugg i segs).sugg.getD [] ++ ' ' :: pyStrip l) } : Suggestion) =
              mkTextSugg i (segs ++ [pyStrip l]) := by
            simp [mkTextSugg, joinSpace_append segs (pyStrip l) hsegs]
          rw [hupd]
          have := ih acc (some (i, segs ++ [pyStrip l]))
            (by intro i' segs' hs; cases hs; simp)
          rw [Option.map_some'] at this
          exact this

/-- C7 counterexample: for the dash-marker line "- see v1.2" the parser takes
the remainder after the line's **first `.`** (yielding "2"), not the
remainder after the dash marker ("see v1.2") as claimed. -/
theorem C7_counterexample :
    parseTextSuggestions "- see v1.2".toList =
      [⟨some 1, some "General".toList, some "2".toList, none, none⟩]
    ∧ pyStrip (("- see v1.2".toList).drop 1) = "see v1.2".toList
    ∧ ("2".toList : List Char) ≠ "see v1.2".toList := by decide

/-- C7 amended: the structured text parser behaves as the explicit two-state
machine: a stripped line starting with "1."–"5." or "-" begins a new
suggestion with id = running count and section "General", whose body is the
remainder of the line after the first `.` when the line contains one and the
remainder after the first character otherwise (trimmed); subsequent non-empty
non-marker lines are appended space-joined; the fallback set (for "general
update") is emitted when no suggestion was produced. -/
theorem C7_amended (content : List Char) :
    parseTextSuggestions content = specTextParse content := by
  unfold parseTextSuggestions specTextParse
  have h := parseTextAux_machine (splitNl content) [] none (by simp)
  simp only [Option.map_none', List.length_nil, List.nil_append] at h
  rw [h]

/-! ### C1 -/

/-- The score as the (amended) specification words it: the number of query
keywords — lower-cased query split on whitespace, counted with multiplicity —
that occur as substrings of the lower-cased string formed by the title, a
space, and the body. -/
def specScore (query : List Char) (s : MdSection) : Nat :=
  (pySplitWS (pyLower query)).countP (fun k => isSubstrOf k (pyLower (s.title ++ ' ' :: s.content)))

/-- The candidate list as the specification words it: for every section of
every document, in corpus encounter order, keep those with positive score. -/
def specCandidates (query : List Char) (docs : List MdDocument) : List RankedSection :=
  docs.flatMap (fun d =>
    ((extractSections d.content).map
        (fun s => RankedSection.mk d.path s (specScore query s) d.content)).filter
      (fun r => 0 < r.relevance_score))

/-- The score as the original claim words it: substrings of the lower-cased
concatenation of title and body, with **no** separator between them. -/
def specScoreNoSpace (query : List Char) (s : MdSection) : Nat :=
  (pySplitWS (pyLower query)).countP (fun k => isSubstrOf k (pyLower (s.title ++ s.content)))

/-- C1 counterexample: the code scores against `"{title} {content}"` (title,
space, body), not against the plain concatenation of title and body. For the
query "bc" and a document with one section (title "ab", body "cd"), the
claim's score is 1 (so the claim requires the section in the output), but the
code's output is empty. -/
theorem C1_counterexample :
    findRelevantSections "bc".toList [⟨"d.md".toList, "# ab\ncd".toList⟩] = []
    ∧ extractSections "# ab\ncd".toList = [⟨"ab".toList, 1, 1, "cd".toList, 2⟩]
    ∧ specScoreNoSpace "bc".toList ⟨"ab".toList, 1, 1, "cd".toList, 2⟩ = 1 := by decide

theorem insertDesc_chain (x : RankedSection) (xs : List RankedSection)
    (h : List.Chain' (fun a b => b.relevance_score ≤ a.relevance_score) xs) :
    List.Chain' (fun a b => b.relevance_score ≤ a.relevance_score) (insertDesc x xs) := by
  induction xs with
  | nil => simp [insertDesc]
  | cons y ys ih =>
    rw [insertDesc]
    by_cases hxy : x.relevance_score ≤ y.relevance_score
    · rw [if_pos hxy]
      refine List.chain'_cons'.mpr ⟨?_, ih h.tail⟩
      intro z hz
      cases ys with
      | nil =>
        simp [insertDesc] at hz
        subst hz
        exact hxy
      | cons w ws =>
        rw [insertDesc] at hz
        by_cases hxw : x.relevance_score ≤ w.relevance_score
        · rw [if_pos hxw] at hz
          simp at hz
          subst hz
          exact (List.chain'_cons.mp h).1
        · rw [if_neg hxw] at hz
          simp at hz
          subst hz
          exact hxy
    · rw [if_neg hxy]
      exact List.chain'_cons.mpr ⟨le_of_not_le hxy, h⟩

/-- In a descending chain, every element of the tail is bounded by the head. -/
theorem chain_desc_le_head (y : RankedSection) (ys : List RankedSection)
    (h : List.Chain' (fun a b => b.relevance_score ≤ a.relevance_score) (y :: ys)) :
    ∀ z ∈ ys, z.relevance_score ≤ y.relevance_score := by
  induction ys generalizing y with
  | nil => intro z hz; cases hz
  | cons w ws ih =>
    intro z hz
    have hyw : w.relevance_score ≤ y.relevance_score := (List.chain'_cons.mp h).1
    cases List.mem_cons.mp hz with
    | inl he => rw [he]; exact hyw
    | inr hm => exact le_trans (ih w (List.chain'_cons.mp h).2 z hm) hyw

theorem insertDesc_filter (x : RankedSection) (xs : List RankedSection) (v : Nat)
    (h : List.Chain' (fun a b => b.relevance_score ≤ a.relevance_score) xs) :
    (insertDesc x xs).filter (fun r => r.relevance_score == v) =
      if x.relevance_score = v
      then xs.filter (fun r => r.relevance_score == v) ++ [x]
      else xs.filter (fun r => r.relevance_score == v) := by
  induction xs with
  | nil =>
    by_cases hv : x.relevance_score = v
    · simp [insertDesc, List.filter_cons, hv]
    · have hvb : (x.relevance_score == v) = false := by simpa using hv
      simp [insertDesc, List.filter_cons, hvb, hv]
  | cons y ys ih =>
    rw [insertDesc]
    by_cases hxy : x.relevance_score ≤ y.relevance_score
    · rw [if_pos hxy]
      have ihy := ih h.tail
      by_cases hyv : y.relevance_score = v
      · have hyb : (y.relevance_score == v) = true := by simpa using hyv
        simp only [List.filter_cons, hyb, if_true, ihy]
        by_cases hv : x.relevance_score = v <;> simp [hv]
      · have hyb : (y.relevance_score == v) = false := by simpa using hyv
        simp only [List.filter_cons, hyb, ihy]
        by_cases hv : x.relevance_score = v <;> simp [hv]
    · rw [if_neg hxy]
      have hlt : y.relevance_score < x.relevance_score := Nat.lt_of_not_le hxy
      by_cases hv : x.relevance_score = v
      · have hnil : (y :: ys).filter (fun r => r.relevance_score == v) = [] := by
          rw [List.filter_eq_nil_iff]
          intro z hz
          have hz' : z.relevance_score ≤ y.relevance_score := by
            cases List.mem_cons.mp hz with
            | inl he => rw [he]
            | inr hm => exact chain_desc_le_head y ys h z hm
          simp only [beq_iff_eq]
          omega
        have hvb : (x.relevance_score == v) = true := by simpa using hv
        simp [List.filter_cons, hv, hvb, hnil]
      · have hvb : (x.relevance_score == v) = false := by simpa using hv
        simp [List.filter_cons, hvb, hv]

theorem sortDesc_aux (xs : List RankedSection) :
    ∀ acc, List.Chain' (fun a b => b.relevance_score ≤ a.relevance_score) acc →
      List.Chain' (fun a b => b.relevance_score ≤ a.relevance_score)
        (xs.foldl (fun a x => insertDesc x a) acc)
      ∧ ∀ v, (xs.foldl (fun a x => insertDesc x a) acc).filter (fun r => r.relevance_score == v) =
          acc.filter (fun r => r.relevance_score == v) ++
            xs.filter (fun r => r.relevance_score == v) := by
  induction xs with
  | nil => intro acc h; exact ⟨h, fun v => by simp⟩
  | cons x xs ih =>
    intro acc h
    have hins := insertDesc_chain x acc h
    obtain ⟨h1, h2⟩ := ih (insertDesc x acc) hins
    constructor
    · rw [List.foldl_cons]
      exact h1
    · intro v
      rw [List.foldl_cons, h2 v, insertDesc_filter x acc v h]
      by_cases hv : x.relevance_score = v
      · have hvb : (x.relevance_score == v) = true := by simpa using hv
        rw [if_pos hv]
        simp [List.filter_cons, hvb, List.append_assoc]
      · have hvb : (x.relevance_score == v) = false := by simpa using hv
        rw [if_neg hv]
        simp [List.filter_cons, hvb]

theorem sortDesc_chain (xs : List RankedSection) :
    List.Chain' (fun a b => b.relevance_score ≤ a.relevance_score) (sortDesc xs) :=
  (sortDesc_aux xs [] (by simp)).1

theorem sortDesc_filter (xs : List RankedSection) (v : Nat) :
    (sortDesc xs).filter (fun r => r.relevance_score == v) =
      xs.filter (fun r => r.relevance_score == v) := by
  have h := (sortDesc_aux xs [] (by simp)).2 v
  rw [sortDesc]
  rw [h]
  simp

theorem filterMap_scored (pathv cont q : List Char) (secs : List MdSection) :
    secs.filterMap (fun s =>
      let sc := sectionScore (pySplitWS (pyLower q)) s
      if 0 < sc then some (⟨pathv, s, sc, cont⟩ : RankedSection) else none)
    = (secs.map (fun s => RankedSection.mk pathv s (specScore q s) cont)).filter
        (fun r => 0 < r.relevance_score) := by
  induction secs with
  | nil => rfl
  | cons s ss ih =>
    have hsc : sectionScore (pySplitWS (pyLower q)) s = specScore q s := by
      rw [specScore, sectionScore, sectionText, List.countP_eq_length_filter]
    simp only [List.filterMap_cons, List.map_cons, List.filter_cons, hsc]
    by_cases hpos : 0 < specScore q s
    · simp [hpos, ih]
    · simp [hpos, ih]

/-- The candidate list built inside `find_relevant_sections` coincides with
the specification's candidate list. -/
theorem cands_eq_spec (query : List Char) (docs : List MdDocument) :
    (docs.flatMap (fun d =>
      (extractSections d.content).filterMap (fun s =>
        let sc := sectionScore (pySplitWS (pyLower query)) s
        if 0 < sc then some ⟨d.path, s, sc, d.content⟩ else none)))
    = specCandidates query docs := by
  unfold specCandidates
  congr 1
  funext d
  exact filterMap_scored d.path d.content query (extractSections d.content)

/-- C1 amended: `find_relevant_sections` returns the stable descending sort of
exactly the sections with positive score — where a section's score counts,
with multiplicity, the query keywords that are substrings of the lower-cased
string "title, space, body" — truncated to at most 10 entries; the full sorted
list is descending by score and, level by level, preserves corpus encounter
order (ties keep encounter order). -/
theorem C1_amended (query : List Char) (docs : List MdDocument) :
    findRelevantSections query docs = (sortDesc (specCandidates query docs)).take 10
    ∧ (findRelevantSections query docs).length ≤ 10
    ∧ List.Chain' (fun a b => b.relevance_score ≤ a.relevance_score)
        (findRelevantSections query docs)
    ∧ List.Chain' (fun a b => b.relevance_score ≤ a.relevance_score)
        (sortDesc (specCandidates query docs))
    ∧ (∀ v, (sortDesc (specCandidates query docs)).filter (fun r => r.relevance_score == v)
        = (specCandidates query docs).filter (fun r => r.relevance_score == v)) := by
  have heq : findRelevantSections query docs =
      (sortDesc (specCandidates query docs)).take 10 := by
    rw [findRelevantSections, cands_eq_spec]
  refine ⟨heq, ?_, ?_, sortDesc_chain _, fun v => sortDesc_filter _ v⟩
  · rw [heq]; exact List.length_take_le 10 _
  · rw [heq]; exact (sortDesc_chain _).take _

/-! ### C4 -/

theorem extractAux_cons_header_none (l : List Char) (rest : List (List Char)) (i : Nat)
    (lv : Nat) (t : List Char) (h : headerMatch l = some (lv, t)) :
    extractAux (l :: rest) i none = extractAux rest (i + 1) (some ⟨t, lv, i, []⟩) := by
  simp [extractAux, h]

theorem extractAux_cons_header_some (l : List Char) (rest : List (List Char)) (i : Nat)
    (c : OpenSec) (lv : Nat) (t : List Char) (h : headerMatch l = some (lv, t)) :
    extractAux (l :: rest) i (some c) =
      closeSec c (i - 1) :: extractAux rest (i + 1) (some ⟨t, lv, i, []⟩) := by
  simp [extractAux, h]

theorem extractAux_cons_noheader_none (l : List Char) (rest : List (List Char)) (i : Nat)
    (h : headerMatch l = none) :
    extractAux (l :: rest) i none = extractAux rest (i + 1) none := by
  simp [extractAux, h]

theorem extractAux_cons_noheader_some (l : List Char) (rest : List (List Char)) (i : Nat)
    (c : OpenSec) (h : headerMatch l = none) :
    extractAux (l :: rest) i (some c) =
      extractAux rest (i + 1) (some { c with acc := c.acc ++ [l] }) := by
  simp [extractAux, h]

theorem extractAux_some_ne_nil (ls : List (List Char)) :
    ∀ (i : Nat) (c : OpenSec), extractAux ls i (some c) ≠ [] := by
  induction ls with
  | nil => intro i c; simp [extractAux]
  | cons l rest ih =>
    intro i c
    cases hh : headerMatch l with
    | some p =>
      obtain ⟨lv, t⟩ := p
      rw [extractAux_cons_header_some l rest i c lv t hh]
      simp
    | none =>
      rw [extractAux_cons_noheader_some l rest i c hh]
      exact ih (i + 1) _

theorem extractAux_head (ls : List (List Char)) :
    ∀ (i : Nat) (c : OpenSec), ∃ s rest', extractAux ls i (some c) = s :: rest'
      ∧ s.start_line = c.start_line ∧ i ≤ s.end_line + 1 := by
  induction ls with
  | nil =>
    intro i c
    exact ⟨closeSec c (i - 1), [], rfl, rfl, by simp [closeSec]; omega⟩
  | cons l rest ih =>
    intro i c
    cases hh : headerMatch l with
    | some p =>
      obtain ⟨lv, t⟩ := p
      exact ⟨closeSec c (i - 1), _, extractAux_cons_header_some l rest i c lv t hh, rfl,
        by simp [closeSec]; omega⟩
    | none =>
      obtain ⟨s, r', heq, hs, hi⟩ := ih (i + 1) { c with acc := c.acc ++ [l] }
      exact ⟨s, r', by rw [extractAux_cons_noheader_some l rest i c hh]; exact heq, hs,
        by omega⟩

theorem extractAux_chain (ls : List (List Char)) :
    ∀ (i : Nat) (cur : Option OpenSec), (∀ c, cur = some c → c.start_line + 1 ≤ i) →
      List.Chain' (fun a b => b.start_line = a.end_line + 1) (extractAux ls i cur)
      ∧ ∀ s ∈ extractAux ls i cur, s.start_line ≤ s.end_line := by
  induction ls with
  | nil =>
    intro i cur hcur
    cases cur with
    | none => simp [extractAux]
    | some c =>
      refine ⟨by simp [extractAux], ?_⟩
      intro s hs
      simp [extractAux] at hs
      subst hs
      have := hcur c rfl
      simp [closeSec]
      omega
  | cons l rest ih =>
    intro i cur hcur
    cases hh : headerMatch l with
    | some p =>
      obtain ⟨lv, t⟩ := p
      cases cur with
      | none =>
        rw [extractAux_cons_header_none l rest i lv t hh]
        exact ih (i + 1) (some ⟨t, lv, i, []⟩) (by intro c hc; cases hc; simp)
      | some c =>
        rw [extractAux_cons_header_some l rest i c lv t hh]
        have hrec := ih (i + 1) (some ⟨t, lv, i, []⟩) (by intro c' hc'; cases hc'; simp)
        obtain ⟨s, r', heq, hs, hi⟩ := extractAux_head rest (i + 1) ⟨t, lv, i, []⟩
        have hic := hcur c rfl
        constructor
        · rw [heq]
          refine List.chain'_cons.mpr ⟨?_, ?_⟩
          · show s.start_line = (closeSec c (i - 1)).end_line + 1
            rw [hs]
            simp [closeSec]
            omega
          · rw [← heq]
            exact hrec.1
        · intro s' hs'
          cases List.mem_cons.mp hs' with
          | inl he =>
            subst he
            simp [closeSec]
            omega
          | inr hm => exact hrec.2 s' hm
    | none =>
      cases cur with
      | none =>
        rw [extractAux_cons_noheader_none l rest i hh]
        exact ih (i + 1) none (by intro c hc; cases hc)
      | some c =>
        rw [extractAux_cons_noheader_some l rest i c hh]
        refine ih (i + 1) (some { c with acc := c.acc ++ [l] }) ?_
        intro c' hc'
        cases hc'
        have := hcur c rfl
        simp
        omega

theorem getLast?_cons_ne_nil (a : MdSection) (l : List MdSection) (h : l ≠ []) :
    (a :: l).getLast? = l.getLast? := by
  cases l with
  | nil => exact absurd rfl h
  | cons b bs => exact List.getLast?_cons_cons

theorem extractAux_last (ls : List (List Char)) :
    ∀ (i : Nat) (cur : Option OpenSec) (s : MdSection),
      (extractAux ls i cur).getLast? = some s → s.end_line = i + ls.length - 1 := by
  induction ls with
  | nil =>
    intro i cur s h
    cases cur with
    | none => simp [extractAux] at h
    | some c =>
      simp [extractAux] at h
      rw [← h]
      simp [closeSec]
  | cons l rest ih =>
    intro i cur s h
    cases hh : headerMatch l with
    | some p =>
      obtain ⟨lv, t⟩ := p
      cases cur with
      | none =>
        rw [extractAux_cons_header_none l rest i lv t hh] at h
        have := ih (i + 1) (some ⟨t, lv, i, []⟩) s h
        simp only [List.length_cons]
        omega
      | some c =>
        rw [extractAux_cons_header_some l rest i c lv t hh,
          getLast?_cons_ne_nil _ _ (extractAux_some_ne_nil rest (i + 1) _)] at h
        have := ih (i + 1) (some ⟨t, lv, i, []⟩) s h
        simp only [List.length_cons]
        omega
    | none =>
      cases cur with
      | none =>
        rw [extractAux_cons_noheader_none l rest i hh] at h
        have := ih (i + 1) none s h
        simp only [List.length_cons]
        omega
      | some c =>
        rw [extractAux_cons_noheader_some l rest i c hh] at h
        have := ih (i + 1) (some { c with acc := c.acc ++ [l] }) s h
        simp only [List.length_cons]
        omega

theorem extractAux_no_heading (ls : List (List Char))
    (h : ∀ l ∈ ls, headerMatch l = none) :
    ∀ i, extractAux ls i none = [] := by
  induction ls with
  | nil => intro i; rfl
  | cons l rest ih =>
    intro i
    rw [extractAux_cons_noheader_none l rest i (h l (by simp))]
    exact ih (fun l' hl' => h l' (by simp [hl'])) (i + 1)

theorem extractAux_content (orig : List (List Char)) :
    ∀ (ls : List (List Char)) (i : Nat) (cur : Option OpenSec),
      orig.drop (i - 1) = ls → 1 ≤ i →
      (∀ c, cur = some c → c.start_line < i ∧
        c.acc = (orig.drop c.start_line).take (i - 1 - c.start_line)) →
      ∀ s ∈ extractAux ls i cur,
        s.content = pyStrip (joinNl ((orig.drop s.start_line).take
          (s.end_line - s.start_line))) := by
  intro ls
  induction ls with
  | nil =>
    intro i cur hdrop hi hcur s hs
    cases cur with
    | none => simp [extractAux] at hs
    | some c =>
      simp [extractAux] at hs
      subst hs
      obtain ⟨hlt, hacc⟩ := hcur c rfl
      show pyStrip (joinNl c.acc) = _
      rw [hacc]
      rfl
  | cons l rest ih =>
    intro i cur hdrop hi hcur s hs
    have hdrop' : orig.drop i = rest := by
      have h1 : orig.drop ((i - 1) + 1) = (orig.drop (i - 1)).drop 1 :=
        (List.drop_drop 1 (i - 1) orig).symm
      rw [hdrop] at h1
      have h2 : (i - 1) + 1 = i := by omega
      rw [h2] at h1
      exact h1
    cases hh : headerMatch l with
    | some p =>
      obtain ⟨lv, t⟩ := p
      cases cur with
      | none =>
        rw [extractAux_cons_header_none l rest i lv t hh] at hs
        refine ih (i + 1) (some ⟨t, lv, i, []⟩) (by simpa using hdrop') (by omega) ?_ s hs
        intro c' hc'
        cases hc'
        exact ⟨by show i < i + 1; omega,
          by show ([] : List (List Char)) = (orig.drop i).take (i + 1 - 1 - i); simp⟩
      | some c =>
        rw [extractAux_cons_header_some l rest i c lv t hh] at hs
        cases List.mem_cons.mp hs with
        | inl he =>
          subst he
          obtain ⟨hlt, hacc⟩ := hcur c rfl
          show pyStrip (joinNl c.acc) = _
          rw [hacc]
          rfl
        | inr hm =>
          refine ih (i + 1) (some ⟨t, lv, i, []⟩) (by simpa using hdrop') (by omega) ?_ s hm
          intro c' hc'
          cases hc'
          exact ⟨by show i < i + 1; omega,
            by show ([] : List (List Char)) = (orig.drop i).take (i + 1 - 1 - i); simp⟩
    | none =>
      cases cur with
      | none =>
        rw [extractAux_cons_noheader_none l rest i hh] at hs
        exact ih (i + 1) none (by simpa using hdrop') (by omega)
          (by intro c hc; cases hc) s hs
      | some c =>
        rw [extractAux_cons_noheader_some l rest i c hh] at hs
        refine ih (i + 1) (some { c with acc := c.acc ++ [l] })
          (by simpa using hdrop') (by omega) ?_ s hs
        intro c' hc'
        cases hc'
        obtain ⟨hlt, hacc⟩ := hcur c rfl
        refine ⟨by simp; omega, ?_⟩
        show c.acc ++ [l] = (orig.drop c.start_line).take (i + 1 - 1 - c.start_line)
        rw [hacc]
        have hidx : orig[i - 1]? = some l := by
          have h0 : (orig.drop (i - 1))[0]? = some l := by rw [hdrop]; simp
          rw [List.getElem?_drop] at h0
          simpa using h0
        have hdix : (orig.drop c.start_line)[i - 1 - c.start_line]? = some l := by
          rw [List.getElem?_drop]
          have harith : c.start_line + (i - 1 - c.start_line) = i - 1 := by omega
          rw [harith]
          exact hidx
        rw [show i + 1 - 1 - c.start_line = (i - 1 - c.start_line) + 1 by omega]
        rw [List.take_succ, hdix]
        rfl

/-- C4: for every input, the extracted sections are ordered by start line,
non-overlapping and contiguous (each section closed by a subsequent heading
ends on the line immediately before that heading, which is the next section's
start line); each section's start line does not exceed its end line; its body
is the non-heading lines strictly between its heading and its end line,
joined with newlines and trimmed; the last section is closed with end line
equal to the total line count; and an input with no heading lines yields zero
sections. -/
theorem C4_extraction_invariants (content : List Char) :
    (∀ s ∈ extractSections content, s.start_line ≤ s.end_line)
    ∧ List.Chain' (fun a b => b.start_line = a.end_line + 1) (extractSections content)
    ∧ (∀ s, (extractSections content).getLast? = some s →
        s.end_line = (splitNl content).length)
    ∧ ((∀ l ∈ splitNl content, headerMatch l = none) → extractSections content = [])
    ∧ (∀ s ∈ extractSections content,
        s.content = pyStrip (joinNl (((splitNl content).drop s.start_line).take
          (s.end_line - s.start_line)))) := by
  have hchain := extractAux_chain (splitNl content) 1 none (by intro c hc; cases hc)
  refine ⟨hchain.2, hchain.1, ?_, ?_, ?_⟩
  · intro s h
    have := extractAux_last (splitNl content) 1 none s h
    omega
  · intro h
    exact extractAux_no_heading (splitNl content) h 1
  · intro s hs
    exact extractAux_content (splitNl content) (splitNl content) 1 none (by simp) (by omega)
      (by intro c hc; cases hc) s hs

theorem C4_extraction_invariants_witness :
    (⟨"B".toList, 2, 4, "y".toList, 5⟩ : MdSection).end_line =
      (splitNl "# A\nx\n\n## B\ny".toList).length
    ∧ extractSections "plain\ntext".toList = []
    ∧ (⟨"B".toList, 2, 4, "y".toList, 5⟩ : MdSection).start_line ≤
      (⟨"B".toList, 2, 4, "y".toList, 5⟩ : MdSection).end_line
    ∧ (⟨"B".toList, 2, 4, "y".toList, 5⟩ : MdSection).content =
      pyStrip (joinNl (((splitNl "# A\nx\n\n## B\ny".toList).drop 4).take 1)) := by
  have h1 := C4_extraction_invariants "# A\nx\n\n## B\ny".toList
  have h2 := C4_extraction_invariants "plain\ntext".toList
  exact ⟨h1.2.2.1 _ (by decide), h2.2.2.2.1 (by decide),
    h1.1 _ (by decide), h1.2.2.2.2 _ (by decide)⟩
